import Mathlib

/-!
Verification of the kale-graph core (line-oriented DSL parser and graph
renderer) against its specification.  The definitions below are a shallow
embedding of `src/parser.ts`, `src/graph-renderer.ts` and the data model of
`src/types.ts`: strings are `List Char`, JS exceptions are `Except`, JS `Map`
is an insertion-ordered association list.  Each definition's doc comment
names the source construct it embeds.
-/

namespace Kale

/-- JS regex class `\w` = `[A-Za-z0-9_]` (ASCII letters, digits, underscore). -/
def isWordChar (c : Char) : Bool := c.isAlphanum || c = '_'

/-- JS regex class `\s` (whitespace), restricted to the ASCII whitespace
characters that can occur in a source line. -/
def isSpaceChar (c : Char) : Bool :=
  c = ' ' || c = '\t' || c = '\n' || c = '\r' || c = '\x0b' || c = '\x0c'

/-- JS regex class `\d`. -/
def isDigitChar (c : Char) : Bool := c.isDigit

/-- Consume the longest whitespace run, as `\s*` does. -/
def skipSpaces (l : List Char) : List Char := l.dropWhile isSpaceChar

/-- JS `String.prototype.trim`: drop leading and trailing whitespace. -/
def trimChars (l : List Char) : List Char :=
  ((l.dropWhile isSpaceChar).reverse.dropWhile isSpaceChar).reverse

/-- JS `source.split("\n")`: `""` splits to `[""]`. -/
def splitOnNewline : List Char → List (List Char)
  | [] => [[]]
  | '\n' :: rest => [] :: splitOnNewline rest
  | c :: rest =>
    match splitOnNewline rest with
    | [] => [[c]]
    | l :: ls => (c :: l) :: ls

/-- JS `line.replace(COMMENT_PATTERN, "")` with `COMMENT_PATTERN = /\/\/.+/`:
delete everything from the first `//` that is followed by at least one
character (`.+` is greedy and `.` cannot match past the line). A bare
trailing `//` has no match and is kept. -/
def stripComment : List Char → List Char
  | '/' :: '/' :: _ :: _ => []
  | c :: rest => c :: stripComment rest
  | [] => []

/-- A vertex is its declared name (`type Vertex = string`). -/
abbrev Vertex := List Char

/-- JS `Array.prototype.indexOf` on the vertex list; `none` stands for `-1`. -/
def indexOf (vs : List Vertex) (v : Vertex) : Option Nat :=
  match vs with
  | [] => none
  | w :: rest => if w = v then some 0 else (indexOf rest v).map (· + 1)

/-- Maximal digit runs of a line, in order: the matches of
`ADJACENCY_MATRIX_SEARCH_PATTERN = /\d+/g`.  `acc` is the (reversed) run
being accumulated. -/
def digitRunsAux : List Char → List Char → List (List Char)
  | [], acc => if acc.isEmpty then [] else [acc.reverse]
  | c :: rest, acc =>
    if isDigitChar c then digitRunsAux rest (c :: acc)
    else if acc.isEmpty then digitRunsAux rest []
    else acc.reverse :: digitRunsAux rest []

def digitRuns (l : List Char) : List (List Char) := digitRunsAux l []

/-- Numeric value of a decimal digit character. -/
def charToDigit (c : Char) : Nat := c.toNat - '0'.toNat

/-- JS `parseInt` on a string of decimal digits. -/
def strToNat (cs : List Char) : Nat :=
  cs.foldl (fun a c => a * 10 + charToDigit c) 0

/-- One parenthesised group of `EDGE_SEARCH_PATTERN =
`/\(\s*(\w+?)\s*,\s*(\w+?)\s*\)/g`: `(`, spaces, word, spaces, `,`, spaces,
word, spaces, `)`.  Returns the two captured names and the rest of the line. -/
def parseEdgeGroup (l : List Char) : Option ((Vertex × Vertex) × List Char) :=
  match l with
  | '(' :: rest =>
    let r1 := skipSpaces rest
    let w1 := r1.takeWhile isWordChar
    let r2 := r1.dropWhile isWordChar
    if w1.isEmpty then none
    else
      match skipSpaces r2 with
      | ',' :: r4 =>
        let r5 := skipSpaces r4
        let w2 := r5.takeWhile isWordChar
        let r6 := r5.dropWhile isWordChar
        if w2.isEmpty then none
        else
          match skipSpaces r6 with
          | ')' :: r8 => some ((w1, w2), r8)
          | _ => none
      | _ => none
  | _ => none

/-- Rest of an edge-list line after a group, per `EDGE_VALIDATE_PATTERN =
`/^(\(\s*(\w+?\s*[,]\s*\w+?)\s*\)(\s*[,]\s*)?)+$/`: either the end of the
line, or an optional `\s*,\s*` separator (which may also be trailing) and
then the next group, which must start immediately when no separator is
taken.  `fuel` only bounds the recursion; it starts at the line length,
which a group (consuming at least `(`) can never exhaust first. -/
def parseEdgeRest (fuel : Nat) (l : List Char) : Option (List (Vertex × Vertex)) :=
  match fuel with
  | 0 => none
  | fuel + 1 =>
    if l.isEmpty then some []
    else
      match skipSpaces l with
      | ',' :: r1 =>
        let r2 := skipSpaces r1
        if r2.isEmpty then some []
        else
          match parseEdgeGroup r2 with
          | some (g, rest) => (parseEdgeRest fuel rest).map (g :: ·)
          | none => none
      | _ =>
        match parseEdgeGroup l with
        | some (g, rest) => (parseEdgeRest fuel rest).map (g :: ·)
        | none => none

/-- Edge-list line: validation by `EDGE_VALIDATE_PATTERN` together with the
extraction of every `EDGE_SEARCH_PATTERN` group, in order.  `none` means the
validate pattern does not match. -/
def parseEdgeLine (l : List Char) : Option (List (Vertex × Vertex)) :=
  match parseEdgeGroup l with
  | some (g, rest) => (parseEdgeRest l.length rest).map (g :: ·)
  | none => none

/-- `ADJACENCY_MATRIX_VALIDATE_PATTERN = /^[\s\d]+$/`. -/
def matrixValidate (l : List Char) : Bool :=
  !l.isEmpty && l.all (fun c => isSpaceChar c || isDigitChar c)

/-- Matrix-row reading from `parseSource`: collect the `/\d+/g` matches; a
single match is split into one cell per digit (compact form), otherwise each
match is one cell (spaced form). -/
def parseMatrixRow (l : List Char) : List Nat :=
  if (digitRuns l).length = 1 then ((digitRuns l).headD []).map charToDigit
  else (digitRuns l).map strToNat

/-- Vertex-list line: `VERTEX_VALIDATE_PATTERN = /^(\w+\s*,\s*)*\w+\s*,?$/`
with the words of `VERTEX_SEARCH_PATTERN = /\w+(?=\s*(,|$))/g`.  A trailing
comma must be the final character (`,?$`). -/
def parseVertexWordsAux (fuel : Nat) (l : List Char) : Option (List Vertex) :=
  match fuel with
  | 0 => none
  | fuel + 1 =>
    let w := l.takeWhile isWordChar
    let r1 := l.dropWhile isWordChar
    if w.isEmpty then none
    else
      match skipSpaces r1 with
      | [] => some [w]
      | ',' :: r3 =>
        if r3.isEmpty then some [w]
        else (parseVertexWordsAux fuel (skipSpaces r3)).map (w :: ·)
      | _ => none

def parseVertexLine (l : List Char) : Option (List Vertex) :=
  parseVertexWordsAux (l.length + 1) l

/-- Path line: `PATH_VALIDATE_PATTERN = /^(\w+\s*-\s*)*\w+\s*$/` with the
words of `PATH_SEARCH_PATTERN = /\w+(?=\s*(-|$))/g`. -/
def parsePathWordsAux (fuel : Nat) (l : List Char) : Option (List Vertex) :=
  match fuel with
  | 0 => none
  | fuel + 1 =>
    let w := l.takeWhile isWordChar
    let r1 := l.dropWhile isWordChar
    if w.isEmpty then none
    else
      match skipSpaces r1 with
      | [] => some [w]
      | '-' :: r3 => (parsePathWordsAux fuel (skipSpaces r3)).map (w :: ·)
      | _ => none

def parsePathLine (l : List Char) : Option (List Vertex) :=
  parsePathWordsAux (l.length + 1) l

/-- The four mode flags (`interface Flags`), all defaulting to false. -/
structure Flags where
  directed : Bool
  simple : Bool
  auto : Bool
  flipped : Bool
deriving DecidableEq

def DEFAULT_FLAGS : Flags :=
  { directed := false, simple := false, auto := false, flipped := false }

/-- `parseFlags` merged onto the defaults: the source builds a
`Partial<Flags>` whose fields are set (to true) exactly when the letter
occurs, and `Object.assign`s it onto the all-false defaults, which yields
precisely this record. -/
def parseFlags (l : List Char) : Flags :=
  { directed := l.contains 'd', simple := l.contains 's',
    auto := l.contains 'a', flipped := l.contains 'f' }

/-- A thrown `ParseError`; `unexpected` distinguishes `UnexpectedParseError`
from the plain user-facing `ParseError`. -/
structure ParseError where
  unexpected : Bool
  message : String
deriving DecidableEq

/-- `cancelParse(message)` — every call site in `parseSource` uses the
default `unexpected = false`, i.e. a user error. -/
def cancelParse {α : Type} (message : String) : Except ParseError α :=
  .error { unexpected := false, message := message }

/-- The graph model (`interface GraphData`): `edges` is the flat list of
vertex indices, alternating from- and to-index. -/
structure GraphData where
  flags : Flags
  vertices : List Vertex
  edges : List Nat
deriving DecidableEq

/-- The mutable locals of `parseSource`'s line loop. -/
structure ParseState where
  flags : Flags
  vertices : List Vertex
  edges : List Nat
  firstLine : Bool
  matrix : List (List Nat)
deriving DecidableEq

def initState : ParseState :=
  { flags := DEFAULT_FLAGS, vertices := [], edges := [], firstLine := true,
    matrix := [] }

/-- Resolving one referenced name in an edge/path line: `indexOf`, then on a
miss either auto-append or `cancelParse` with the line's message. -/
def addEdgeVertex (flags : Flags) (vertices : List Vertex) (v : Vertex)
    (msg : String) : Except ParseError (List Vertex × Nat) :=
  match indexOf vertices v with
  | some idx => .ok (vertices, idx)
  | none =>
    if flags.auto then .ok (vertices ++ [v], vertices.length)
    else cancelParse msg

def edgeMsg (n : Nat) : String := "Undefined vertex in edge on line " ++ toString n
def pathMsg (n : Nat) : String := "Undefined vertex in path on line " ++ toString n

/-- The edge-line branch: each group pushes its two resolved indices; a
thrown error propagates. -/
def processEdgeGroups (flags : Flags) (msg : String) :
    List (Vertex × Vertex) → List Vertex → List Nat →
    Except ParseError (List Vertex × List Nat)
  | [], vs, es => .ok (vs, es)
  | (a, b) :: rest, vs, es =>
    match addEdgeVertex flags vs a msg with
    | .error e => .error e
    | .ok (vs1, i) =>
      match addEdgeVertex flags vs1 b msg with
      | .error e => .error e
      | .ok (vs2, j) => processEdgeGroups flags msg rest vs2 (es ++ [i, j])

/-- The path-line branch: `lastVertexIndex` starts at `-1` (here `none`) and
each later word pushes the edge from the previous word; a thrown error
propagates. -/
def processPathWords (flags : Flags) (msg : String) :
    List Vertex → Option Nat → List Vertex → List Nat →
    Except ParseError (List Vertex × List Nat)
  | [], _, vs, es => .ok (vs, es)
  | w :: rest, last, vs, es =>
    match addEdgeVertex flags vs w msg with
    | .error e => .error e
    | .ok (vs1, idx) =>
      processPathWords flags msg rest (some idx) vs1
        (match last with
          | none => es
          | some l => es ++ [l, idx])

/-- One iteration of `parseSource`'s line loop, in source order: the
matrix-contiguity guard, then flags (first line only), edge list, matrix
row, vertex list, path, else invalid line.  `lineNumber` is 1-based. -/
def processLine (lineNumber : Nat) (st : ParseState) (line : List Char) :
    Except ParseError ParseState :=
  if st.matrix ≠ [] ∧ matrixValidate line = false then
    cancelParse "An adjacency matrix cannot be combined with other edge definitions"
  else if st.firstLine ∧ line.headD 'x' = '-' then
    .ok { st with flags := parseFlags (line.drop 1), firstLine := false }
  else
    match parseEdgeLine line with
    | some groups =>
      (processEdgeGroups st.flags (edgeMsg lineNumber) groups st.vertices
        st.edges).map
        fun p => { st with vertices := p.1, edges := p.2, firstLine := false }
    | none =>
      if matrixValidate line then
        if st.edges ≠ [] then
          cancelParse "An adjacency matrix follow other edge definitions"
        else
          if st.matrix ≠ [] ∧ (parseMatrixRow line).length ≠ (st.matrix.headD []).length then
            cancelParse "Matrix rows must be of equal width"
          else .ok { st with matrix := st.matrix ++ [parseMatrixRow line], firstLine := false }
      else
        match parseVertexLine line with
        | some words =>
          .ok { st with vertices := st.vertices ++ words, firstLine := false }
        | none =>
          match parsePathLine line with
          | some words =>
            (processPathWords st.flags (pathMsg lineNumber) words none
              st.vertices st.edges).map
              fun p =>
                { st with vertices := p.1, edges := p.2, firstLine := false }
          | none =>
            cancelParse ("Invalid input on line " ++ toString lineNumber)

/-- The whole line loop. -/
def parseLines (lineNumber : Nat) (st : ParseState) :
    List (List Char) → Except ParseError ParseState
  | [] => .ok st
  | l :: ls => do
    let st' ← processLine lineNumber st l
    parseLines (lineNumber + 1) st' ls

/-- `INVISIBLE_VERTEX_PREFIX = "_"`: `vertex.startsWith("_")`. -/
def startsWithMarker : Vertex → Bool
  | '_' :: _ => true
  | _ => false

/-- The offset-table loop of `parseSource`: returns the number of visible
vertices and, for each visible vertex in order, the number of invisible
vertices preceding it.  (The source pushes `this` — an undefined value —
onto `visibleVertices`; only its length is ever consulted, so the count is
what we keep.) -/
def computeOffsets (vertices : List Vertex) (offset : Nat) : Nat × List Nat :=
  match vertices with
  | [] => (0, [])
  | v :: rest =>
    if startsWithMarker v then computeOffsets rest (offset + 1)
    else
      ((computeOffsets rest offset).1 + 1, offset :: (computeOffsets rest offset).2)

/-- `flags.flipped ? matrix[j][i] : matrix[i][j]`; the `getD` defaults are
never hit after the dimension checks. -/
def matrixCell (flags : Flags) (matrix : List (List Nat)) (i j : Nat) : Nat :=
  if flags.flipped then (matrix.getD j []).getD i 0 else (matrix.getD i []).getD j 0

/-- One (i, j) iteration of the matrix-materialization loops: skip the upper
triangle when undirected, check symmetry and even diagonal when undirected
(halving the diagonal), then push `value` copies of the translated pair. -/
def emitCell (flags : Flags) (matrix : List (List Nat)) (offsets : List Nat)
    (i j : Nat) (edges : List Nat) : Except ParseError (List Nat) :=
  if ¬flags.directed ∧ j > i then .ok edges
  else
    match (if ¬flags.directed then
        if matrixCell flags matrix i j ≠ matrixCell flags matrix j i then
          cancelParse "Adjacency matrix of an undirected graph must be symmetrical"
        else if i = j then
          if matrixCell flags matrix i j % 2 ≠ 0 then
            cancelParse "All vertices in an adjacency matrix of an undirected graph must connect to itself an even amount of times"
          else .ok (matrixCell flags matrix i j / 2)
        else .ok (matrixCell flags matrix i j)
      else .ok (matrixCell flags matrix i j) : Except ParseError Nat) with
    | .error e => .error e
    | .ok value2 =>
      .ok (edges ++
        (List.replicate value2 [i + offsets.getD i 0, j + offsets.getD j 0]).flatten)

/-- The inner `j` loop over `0 ≤ j < matrix.length`. -/
def emitCells (flags : Flags) (matrix : List (List Nat)) (offsets : List Nat)
    (i : Nat) : List Nat → List Nat → Except ParseError (List Nat)
  | [], edges => .ok edges
  | j :: js, edges =>
    match emitCell flags matrix offsets i j edges with
    | .error e => .error e
    | .ok edges1 => emitCells flags matrix offsets i js edges1

/-- The outer `i` loop over `0 ≤ i < matrix.length`. -/
def emitRows (flags : Flags) (matrix : List (List Nat)) (offsets : List Nat) :
    List Nat → List Nat → Except ParseError (List Nat)
  | [], edges => .ok edges
  | i :: is, edges =>
    match emitCells flags matrix offsets i (List.range matrix.length) edges with
    | .error e => .error e
    | .ok edges1 => emitRows flags matrix offsets is edges1

/-- Preprocessing of `parseSource`: split on newlines, strip comments, trim,
drop blank lines. -/
def linesOf (source : List Char) : List (List Char) :=
  ((splitOnNewline source).map (fun l => trimChars (stripComment l))).filter
    (fun l => !l.isEmpty)

/-- `parseSource`: run the line loop, build the offset table, then (when any
matrix rows were seen) check the matrix dimensions against the visible
vertex count and materialize its edges. -/
def parseSource (source : List Char) : Except ParseError GraphData :=
  match parseLines 1 initState (linesOf source) with
  | .error e => .error e
  | .ok st =>
    if st.matrix.isEmpty then
      .ok { flags := st.flags, vertices := st.vertices, edges := st.edges }
    else if st.matrix.length ≠ (computeOffsets st.vertices 0).1 then
      cancelParse "Matrix height must match number of vertices"
    else if (st.matrix.headD []).length ≠ (computeOffsets st.vertices 0).1 then
      cancelParse "Matrix width must match number of vertices"
    else
      match emitRows st.flags st.matrix (computeOffsets st.vertices 0).2
          (List.range st.matrix.length) st.edges with
      | .error e => .error e
      | .ok edges => .ok { flags := st.flags, vertices := st.vertices, edges := edges }

/-- A thrown `RenderError`; `unexpected` distinguishes
`UnexpectedRenderError`. -/
structure RenderError where
  unexpected : Bool
  message : String
deriving DecidableEq

/-- `cancelRender(message, unexpected)`. -/
def cancelRender {α : Type} (message : String) (unexpected : Bool) :
    Except RenderError α :=
  .error { unexpected := unexpected, message := message }

/-- JS `Map` as an insertion-ordered association list: `Map.get`. -/
def alGet {α : Type} : List (Nat × α) → Nat → Option α
  | [], _ => none
  | (k, v) :: rest, key => if k = key then some v else alGet rest key

/-- JS `Map.set`: overwrite an existing key in place, else append. -/
def alSet {α : Type} : List (Nat × α) → Nat → α → List (Nat × α)
  | [], key, value => [(key, value)]
  | (k, v) :: rest, key, value =>
    if k = key then (k, value) :: rest else (k, v) :: alSet rest key value

/-- `seenEdges`: a map from from-index to a map from to-index to the running
count of edges already seen for that oriented pair. -/
abbrev SeenMap := List (Nat × List (Nat × Nat))

/-- `seenEdges.has(a) && seenEdges.get(a).has(b)` combined lookup. -/
def lookup2 (seen : SeenMap) (a b : Nat) : Option Nat :=
  match alGet seen a with
  | none => none
  | some sub => alGet sub b

/-- One `this.drawEdge(i, j, bend, reverse)` call recorded as data. -/
structure DrawnEdge where
  fromIndex : Nat
  toIndex : Nat
  bend : Nat
  reverse : Bool
deriving DecidableEq

/-- The bend-tracking step of `draw` for one (from, to) pair: a hit in the
(from, to) orientation advances that counter and draws with the stored bend
(skipped under `simple`); else a hit in the (to, from) orientation does the
same reversed; else the pair is new, its counter starts at 1 and the edge is
drawn with bend 0.  (When `lookup2` hits, `(alGet seen _).getD []` is
exactly the inner map the source mutates.) -/
def drawStep (flags : Flags) (seen : SeenMap) (fromIndex toIndex : Nat) :
    SeenMap × List DrawnEdge :=
  match lookup2 seen fromIndex toIndex with
  | some bend =>
    (alSet seen fromIndex (alSet ((alGet seen fromIndex).getD []) toIndex (bend + 1)),
      if flags.simple then [] else [⟨fromIndex, toIndex, bend, false⟩])
  | none =>
    match lookup2 seen toIndex fromIndex with
    | some bend =>
      (alSet seen toIndex (alSet ((alGet seen toIndex).getD []) fromIndex (bend + 1)),
        if flags.simple then [] else [⟨toIndex, fromIndex, bend, true⟩])
    | none =>
      (alSet seen fromIndex (alSet ((alGet seen fromIndex).getD []) toIndex 1),
        [⟨fromIndex, toIndex, 0, false⟩])

/-- The edge loop of `KaleGraphRenderer.draw` (`i += 2`; a dangling final
index is never read).  Per pair, in source order: the truthiness check on
both vertex lookups (JS `!v` is true for `undefined` and for the empty
string) throws an unexpected error; an invisible-marked endpoint throws a
user error; otherwise the bend-tracking step runs.  The canvas context is
assumed obtainable (its failure is host-environment, not graph, behavior). -/
def drawEdges (graph : GraphData) : List Nat → SeenMap →
    Except RenderError (List DrawnEdge)
  | fromIndex :: toIndex :: rest, seen =>
    let fromVertex := graph.vertices.getD fromIndex []
    let toVertex := graph.vertices.getD toIndex []
    if fromVertex.isEmpty || toVertex.isEmpty then
      cancelRender "Undefined vertex in edge" true
    else if startsWithMarker fromVertex || startsWithMarker toVertex then
      cancelRender "Edges may not be connected to invisible vertices" false
    else
      let step := drawStep graph.flags seen fromIndex toIndex
      (drawEdges graph rest step.1).map (fun more => step.2 ++ more)
  | _, _ => .ok []

/-- The edge-drawing pass of `draw` on a graph model. -/
def draw (graph : GraphData) : Except RenderError (List DrawnEdge) :=
  drawEdges graph graph.edges []

/-- The full indices whose vertices the vertex pass of `draw` actually
draws: every index of the vertex sequence whose name does not carry the
invisible marker, in order. -/
def drawnVertexIndices (vertices : List Vertex) : List Nat :=
  (List.range vertices.length).filter
    (fun i => !startsWithMarker (vertices.getD i []))

/-- The angle computed by `vertexPosition(i)`, as a coefficient of π (the
position is `(cos(angle)·bigRadius, sin(angle)·bigRadius)` about the
center): `angle = (2π·i)/n − (π·(2−n))/n/2` with
`n = this.graph.vertices.length`, the length of the FULL vertex sequence. -/
def vertexAngleCoeff (n i : Nat) : ℚ :=
  (2 * i) / n - (2 - (n : ℚ)) / n / 2

/-- The displacement `d` of `drawEdge(i, j, bend, ...)`:
`bendiness · ceil(bend/2) · 2 · (−1)^bend` for a non-loop edge and
`bendiness · (bend+1) · 2` for a self-loop. -/
def drawEdgeDisplacement (bendiness : ℚ) (i j bend : Nat) : ℚ :=
  if i ≠ j then bendiness * ((Int.ceil ((bend : ℚ) / 2) : ℤ) : ℚ) * 2 * (-1) ^ bend
  else bendiness * (bend + 1) * 2

/-- Modelled from the spec: non-loop bend displacement
`bendiness · ⌈b/2⌉ · 2 · (−1)^b`, with the ceiling of `b/2` written as the
natural number `(b+1)/2`. -/
def specLineDisplacement (bendiness : ℚ) (b : Nat) : ℚ :=
  bendiness * (((b + 1) / 2 : Nat) : ℚ) * 2 * (-1) ^ b

/-- Modelled from the spec: self-loop displacement `bendiness·(b+1)·2`. -/
def specLoopDisplacement (bendiness : ℚ) (b : Nat) : ℚ :=
  bendiness * (b + 1) * 2

/-- Modelled from the spec: vertex angle (as a coefficient of π)
`2π·i/v − cornerAngle`, `cornerAngle = π·(2−v)/(2v)`, with `v` the number of
VISIBLE vertices and `i` the index among visible vertices. -/
def specVertexAngleCoeff (v i : Nat) : ℚ :=
  (2 * i) / v - (2 - (v : ℚ)) / v / 2

/-- The angle coefficients of the vertices the vertex pass of `draw`
actually draws, in drawing order: `drawVertex(i)` places vertex `i` via
`vertexPosition(i)`. -/
def drawnVertexAngleCoeffs (vertices : List Vertex) : List ℚ :=
  (drawnVertexIndices vertices).map (vertexAngleCoeff vertices.length)

/-- The flat edge-index list regrouped into its (from, to) pairs, as the
`i += 2` loops read it (a dangling last index is dropped). -/
def pairList : List Nat → List (Nat × Nat)
  | a :: b :: rest => (a, b) :: pairList rest
  | _ => []

/-- An undirected pair in canonical (sorted) form. -/
def canonPair (p : Nat × Nat) : Nat × Nat :=
  if p.1 ≤ p.2 then p else (p.2, p.1)

/-! ### Supporting lemmas -/

/-- `Math.ceil(b/2)` for a natural `b` is the natural number `(b+1)/2`. -/
lemma ceil_half_nat (b : ℕ) : Int.ceil ((b : ℚ) / 2) = (((b + 1) / 2 : ℕ) : ℤ) := by
  rcases Nat.even_or_odd b with ⟨k, hk⟩ | ⟨k, hk⟩
  · subst hk
    rw [show ((k + k : ℕ) : ℚ) / 2 = ((k : ℤ) : ℚ) by push_cast; ring]
    rw [Int.ceil_intCast]
    omega
  · subst hk
    rw [show ((2 * k + 1 : ℕ) : ℚ) / 2 = 1 / 2 + ((k : ℤ) : ℚ) by push_cast; ring]
    rw [Int.ceil_add_int]
    have h12 : Int.ceil ((1 : ℚ) / 2) = 1 := by
      rw [Int.ceil_eq_iff]
      norm_num
    rw [h12]
    omega

/-! ### Claim C1 -/

/-- C1: for a non-loop edge with bend index `b` the displacement computed by
`drawEdge` equals `bendiness · ⌈b/2⌉ · 2 · (−1)^b`, so bends 0, 1, 2, 3, 4
give `0, −2·bendiness, +2·bendiness, −4·bendiness, +4·bendiness`, and for a
self-loop it equals `bendiness · (b+1) · 2`. -/
theorem C1_bend_displacement :
    (∀ (bendiness : ℚ) (i j b : Nat), i ≠ j →
      drawEdgeDisplacement bendiness i j b = specLineDisplacement bendiness b) ∧
    (∀ (bendiness : ℚ) (i j : Nat), i ≠ j →
      drawEdgeDisplacement bendiness i j 0 = 0 ∧
      drawEdgeDisplacement bendiness i j 1 = -2 * bendiness ∧
      drawEdgeDisplacement bendiness i j 2 = 2 * bendiness ∧
      drawEdgeDisplacement bendiness i j 3 = -4 * bendiness ∧
      drawEdgeDisplacement bendiness i j 4 = 4 * bendiness) ∧
    (∀ (bendiness : ℚ) (i b : Nat),
      drawEdgeDisplacement bendiness i i b = specLoopDisplacement bendiness b) := by
  have key : ∀ (bendiness : ℚ) (i j b : Nat), i ≠ j →
      drawEdgeDisplacement bendiness i j b = specLineDisplacement bendiness b := by
    intro bendiness i j b hij
    simp only [drawEdgeDisplacement, specLineDisplacement, if_pos hij, ceil_half_nat]
    norm_cast
  refine ⟨key, fun bendiness i j hij => ?_, fun bendiness i b => ?_⟩
  · refine ⟨?_, ?_, ?_, ?_, ?_⟩ <;>
      · rw [key bendiness i j _ hij]
        simp only [specLineDisplacement]
        norm_num
        try ring
  · simp [drawEdgeDisplacement, specLoopDisplacement]

/-- Witness for C1 at concrete inputs. -/
theorem C1_bend_displacement_witness :
    drawEdgeDisplacement 10 0 1 3 = specLineDisplacement 10 3 ∧
    drawEdgeDisplacement 10 0 1 3 = -4 * 10 ∧
    drawEdgeDisplacement 10 2 2 1 = specLoopDisplacement 10 1 :=
  ⟨C1_bend_displacement.1 10 0 1 3 (by decide),
   (C1_bend_displacement.2.1 10 0 1 (by decide)).2.2.2.1,
   C1_bend_displacement.2.2 10 2 1⟩

/-! ### Claim C5 -/

/-- The undirected matrix example of the spec. -/
def c5src : List Char :=
  ("a,b,c,d\n0 0 1 1\n0 2 1 0\n1 1 0 0\n1 0 0 4").data

/-- Its parse result: default flags, vertices a b c d, and the flat edge
list the lower-triangle walk emits (b-loop, c–a, c–b, d–a, two d-loops). -/
def c5graph : GraphData :=
  { flags := DEFAULT_FLAGS, vertices := [['a'], ['b'], ['c'], ['d']],
    edges := [1, 1, 2, 0, 2, 1, 3, 0, 3, 3, 3, 3] }

/-- C5: parsing the `a,b,c,d` matrix example succeeds and yields, as
undirected edges, exactly a–c, a–d, b–c once each, one self-loop on b and
two self-loops on d (indices a=0, b=1, c=2, d=3). -/
theorem C5_matrix_example :
    parseSource c5src = .ok c5graph ∧
    Multiset.ofList ((pairList c5graph.edges).map canonPair) =
      Multiset.ofList [(0, 2), (0, 3), (1, 2), (1, 1), (3, 3), (3, 3)] := by
  constructor
  · rfl
  · decide

/-! ### Claim C3 -/

/-- C3 counterexample: over the vertex sequence `[_a, b]` the single visible
vertex `b` is drawn (full index 1), but the code computes its angle with the
FULL vertex count 2 and full index 1 — coefficient 1 of π — while the
claim's formula with `v = 1` visible vertex and visible index `i = 0` gives
coefficient −1/2; the two differ, and differ even modulo full turns: twice
their difference is the odd integer 3, never `4k`. -/
theorem C3_counterexample :
    drawnVertexIndices [['_', 'a'], ['b']] = [1] ∧
    drawnVertexAngleCoeffs [['_', 'a'], ['b']] = [vertexAngleCoeff 2 1] ∧
    vertexAngleCoeff 2 1 ≠ specVertexAngleCoeff 1 0 ∧
    (vertexAngleCoeff 2 1 - specVertexAngleCoeff 1 0) * 2 = 3 ∧
    ¬(2 : ℤ) ∣ 3 := by
  refine ⟨rfl, rfl, ?_, ?_, by decide⟩
  · unfold vertexAngleCoeff specVertexAngleCoeff
    norm_num
  · unfold vertexAngleCoeff specVertexAngleCoeff
    norm_num

/-- C3 (amended): the k-th drawn (visible) vertex is placed at angle
`2π·i/n − π·(2−n)/(2n)` where `n` is the length of the FULL vertex sequence
(invisible vertices included) and `i` is the vertex's index in that full
sequence; when no vertex is invisible this coincides with the claim's
formula over visible count `v = n` and visible index `i = k`. -/
theorem C3_vertex_layout_amended :
    (∀ (vertices : List Vertex) (k : Nat), k < (drawnVertexIndices vertices).length →
      (drawnVertexAngleCoeffs vertices).getD k 0 =
        vertexAngleCoeff vertices.length ((drawnVertexIndices vertices).getD k 0)) ∧
    (∀ (vertices : List Vertex), (∀ v ∈ vertices, startsWithMarker v = false) →
      drawnVertexIndices vertices = List.range vertices.length ∧
      ∀ k, k < vertices.length →
        (drawnVertexAngleCoeffs vertices).getD k 0 =
          specVertexAngleCoeff vertices.length k) := by
  have hmap : ∀ (vertices : List Vertex) (k : Nat),
      k < (drawnVertexIndices vertices).length →
      (drawnVertexAngleCoeffs vertices).getD k 0 =
        vertexAngleCoeff vertices.length ((drawnVertexIndices vertices).getD k 0) := by
    intro vertices k hk
    unfold drawnVertexAngleCoeffs
    rw [List.getD_eq_getElem?_getD, List.getElem?_map,
      List.getElem?_eq_getElem hk]
    simp [List.getD_eq_getElem?_getD, List.getElem?_eq_getElem hk]
  refine ⟨hmap, fun vertices hvis => ?_⟩
  have hall : drawnVertexIndices vertices = List.range vertices.length := by
    unfold drawnVertexIndices
    apply List.filter_eq_self.mpr
    intro i hi
    rw [List.mem_range] at hi
    have hget : vertices.getD i [] = vertices[i] := by
      rw [List.getD_eq_getElem?_getD, List.getElem?_eq_getElem hi]
      rfl
    rw [hget, hvis vertices[i] (List.getElem_mem hi)]
    rfl
  refine ⟨hall, fun k hk => ?_⟩
  have hk' : k < (drawnVertexIndices vertices).length := by
    rw [hall, List.length_range]; exact hk
  rw [hmap vertices k hk', hall]
  rw [List.getD_eq_getElem?_getD, List.getElem?_range hk]
  rfl

/-- Witness for C3 (amended) at a concrete all-visible vertex list. -/
theorem C3_vertex_layout_amended_witness :
    (drawnVertexAngleCoeffs [['a'], ['b']]).getD 0 0 =
      vertexAngleCoeff 2 ((drawnVertexIndices [['a'], ['b']]).getD 0 0) ∧
    drawnVertexIndices [['a'], ['b']] = List.range 2 ∧
    (drawnVertexAngleCoeffs [['a'], ['b']]).getD 1 0 = specVertexAngleCoeff 2 1 :=
  ⟨C3_vertex_layout_amended.1 [['a'], ['b']] 0 (by decide),
   (C3_vertex_layout_amended.2 [['a'], ['b']] (by decide)).1,
   (C3_vertex_layout_amended.2 [['a'], ['b']] (by decide)).2 1 (by decide)⟩

/-! ### Claim C2 -/

/-- The `simple` example of the spec: flags `-s`, vertices `a,b,c`, then the
paths `a-b-c`, `c-b-a`, `b-a-c`, `a-b-c`. -/
def c2src : List Char := ("-s\na,b,c\na-b-c\nc-b-a\nb-a-c\na-b-c").data

/-- Its parse result. -/
def c2graph : GraphData :=
  { flags := { directed := false, simple := true, auto := false, flipped := false },
    vertices := [['a'], ['b'], ['c']],
    edges := [0, 1, 1, 2, 2, 1, 1, 0, 1, 0, 0, 2, 0, 1, 1, 2] }

/-- The edges its render pass draws. -/
def c2drawn : List DrawnEdge :=
  [⟨0, 1, 0, false⟩, ⟨1, 2, 0, false⟩, ⟨0, 2, 0, false⟩]

/-- C2 counterexample: rendering the spec's `simple` example draws three
distinct undirected vertex pairs — {a,b}, {b,c} and {a,c} — not the two the
claim states (the input's paths mention all three pairs). -/
theorem C2_counterexample :
    parseSource c2src = .ok c2graph ∧
    draw c2graph = .ok c2drawn ∧
    ((c2drawn.map (fun e => canonPair (e.fromIndex, e.toIndex))).dedup.length = 3) ∧
    ¬((c2drawn.map (fun e => canonPair (e.fromIndex, e.toIndex))).dedup.length = 2) := by
  refine ⟨rfl, rfl, by decide, by decide⟩

/-- C2 (amended): with the `simple` flag set, every edge whose computed bend
index exceeds 0 (a hit on the pair's running counter, in either orientation)
is not drawn while the counter still advances; and for the source with flags
line `-s`, vertex list `a,b,c` and path lines `a-b-c`, `c-b-a`, `b-a-c`,
`a-b-c`, rendering draws each of exactly THREE distinct undirected vertex
pairs exactly once. -/
theorem C2_simple_amended :
    (∀ (flags : Flags) (seen : SeenMap) (fi ti b : Nat), flags.simple = true →
      0 < b → lookup2 seen fi ti = some b →
      drawStep flags seen fi ti =
        (alSet seen fi (alSet ((alGet seen fi).getD []) ti (b + 1)), [])) ∧
    (∀ (flags : Flags) (seen : SeenMap) (fi ti b : Nat), flags.simple = true →
      0 < b → lookup2 seen fi ti = none → lookup2 seen ti fi = some b →
      drawStep flags seen fi ti =
        (alSet seen ti (alSet ((alGet seen ti).getD []) fi (b + 1)), [])) ∧
    (parseSource c2src = .ok c2graph ∧
      draw c2graph = .ok c2drawn ∧
      (c2drawn.map (fun e => canonPair (e.fromIndex, e.toIndex))) =
        [(0, 1), (1, 2), (0, 2)] ∧
      [(0, 1), (1, 2), (0, 2)].Nodup) := by
  refine ⟨?_, ?_, rfl, rfl, by decide, by decide⟩
  · intro flags seen fi ti b hsimple _ hhit
    unfold drawStep
    rw [hhit, hsimple]
    rfl
  · intro flags seen fi ti b hsimple _ hmiss hhit
    unfold drawStep
    rw [hmiss, hhit, hsimple]
    rfl

/-- Witness for C2 (amended): a forward-orientation counter hit under
`simple` advances the counter from 1 to 2 and draws nothing, likewise a
reverse-orientation hit. -/
theorem C2_simple_amended_witness :
    drawStep { directed := false, simple := true, auto := false, flipped := false }
      [(0, [(1, 1)])] 0 1 = ([(0, [(1, 2)])], []) ∧
    drawStep { directed := false, simple := true, auto := false, flipped := false }
      [(0, [(1, 3)])] 1 0 = ([(0, [(1, 4)])], []) :=
  ⟨C2_simple_amended.1
      { directed := false, simple := true, auto := false, flipped := false }
      [(0, [(1, 1)])] 0 1 1 rfl (by decide) rfl,
   C2_simple_amended.2.1
      { directed := false, simple := true, auto := false, flipped := false }
      [(0, [(1, 3)])] 1 0 3 rfl (by decide) rfl rfl⟩

/-! ### Claim C8 -/

lemma isEmpty_false_of_ne_nil {l : List Char} (h : l ≠ []) : l.isEmpty = false := by
  cases l with
  | nil => exact absurd rfl h
  | cons c cs => rfl

lemma getD_mem_of_lt {l : List Vertex} {i : Nat} (h : i < l.length) :
    l.getD i [] ∈ l := by
  have hget : l.getD i [] = l[i] := by
    rw [List.getD_eq_getElem?_getD, List.getElem?_eq_getElem h]
    rfl
  rw [hget]
  exact List.getElem_mem h

/-- The edge pass fails with the invisible-vertex user error as soon as it
reaches a pair with an invisible endpoint, provided every index it reads is
in range and every vertex name is nonempty (so the earlier truthiness check
never fires). -/
lemma drawEdges_invisible_error (g : GraphData) :
    ∀ (n : Nat) (es : List Nat) (seen : SeenMap), es.length ≤ n →
      (∀ e ∈ es, e < g.vertices.length) →
      (∀ v ∈ g.vertices, v ≠ []) →
      (∃ p ∈ pairList es,
        startsWithMarker (g.vertices.getD p.1 []) = true ∨
        startsWithMarker (g.vertices.getD p.2 []) = true) →
      drawEdges g es seen =
        .error { unexpected := false,
                 message := "Edges may not be connected to invisible vertices" } := by
  intro n
  induction n with
  | zero =>
    intro es seen hlen _ _ hex
    have : es = [] := List.length_eq_zero.mp (Nat.le_zero.mp hlen)
    subst this
    obtain ⟨p, hp, _⟩ := hex
    exact absurd hp (by simp [pairList])
  | succ n ih =>
    intro es seen hlen hrange hnames hex
    match es with
    | [] =>
      obtain ⟨p, hp, _⟩ := hex
      exact absurd hp (by simp [pairList])
    | [a] =>
      obtain ⟨p, hp, _⟩ := hex
      exact absurd hp (by simp [pairList])
    | a :: b :: rest =>
      have ha : a < g.vertices.length := hrange a (by simp)
      have hb : b < g.vertices.length := hrange b (by simp)
      have hsa : g.vertices[a]? = some g.vertices[a] := List.getElem?_eq_getElem ha
      have hsb : g.vertices[b]? = some g.vertices[b] := List.getElem?_eq_getElem hb
      have hda : g.vertices.getD a [] = g.vertices[a] := by
        rw [List.getD_eq_getElem?_getD, hsa]; rfl
      have hdb : g.vertices.getD b [] = g.vertices[b] := by
        rw [List.getD_eq_getElem?_getD, hsb]; rfl
      have hna : g.vertices[a] ≠ [] := hnames _ (List.getElem_mem ha)
      have hnb : g.vertices[b] ≠ [] := hnames _ (List.getElem_mem hb)
      have hlen' : rest.length ≤ n := by
        simp only [List.length_cons] at hlen
        omega
      by_cases hma : startsWithMarker g.vertices[a] = true
      · simp only [drawEdges]
        rw [if_neg (by simp [hda, hdb, hsa, hsb, hna, hnb]),
          if_pos (by simp [hsa, hma])]
        rfl
      · by_cases hmb : startsWithMarker g.vertices[b] = true
        · simp only [drawEdges]
          rw [if_neg (by simp [hda, hdb, hsa, hsb, hna, hnb]),
            if_pos (by simp [hsb, hmb])]
          rfl
        · have hex' : ∃ p ∈ pairList rest,
              startsWithMarker (g.vertices.getD p.1 []) = true ∨
              startsWithMarker (g.vertices.getD p.2 []) = true := by
            obtain ⟨p, hp, hmk⟩ := hex
            have hp' : p = (a, b) ∨ p ∈ pairList rest := by
              simpa [pairList] using hp
            rcases hp' with rfl | hprest
            · rcases hmk with h | h
              · rw [hda] at h; exact absurd h hma
              · rw [hdb] at h; exact absurd h hmb
            · exact ⟨p, hprest, hmk⟩
          have hrec := ih rest (drawStep g.flags seen a b).1 hlen'
            (fun e he => hrange e (by simp [he])) hnames hex'
          simp only [drawEdges]
          rw [if_neg (by simp [hda, hdb, hsa, hsb, hna, hnb]),
            if_neg (by simp [hsa, hsb, hma, hmb]), hrec]
          rfl

/-- C8: a graph model (satisfying the data-model invariants: every edge
index in range, every vertex name a nonempty word) with an edge whose from-
or to-vertex name carries the invisible leading marker fails render with the
invisible-vertex `RenderError` whose `unexpected` field is false — a
UserError, not an UnexpectedError — independent of how the model was
produced. -/
theorem C8_invisible_edge_user_error (g : GraphData)
    (hrange : ∀ e ∈ g.edges, e < g.vertices.length)
    (hnames : ∀ v ∈ g.vertices, v ≠ [])
    (hinv : ∃ p ∈ pairList g.edges,
      startsWithMarker (g.vertices.getD p.1 []) = true ∨
      startsWithMarker (g.vertices.getD p.2 []) = true) :
    draw g = .error { unexpected := false,
                      message := "Edges may not be connected to invisible vertices" } :=
  drawEdges_invisible_error g g.edges.length g.edges [] (Nat.le_refl _)
    hrange hnames hinv

/-- Witness for C8: the model `a, _b` with the single edge `(a, _b)`. -/
theorem C8_invisible_edge_user_error_witness :
    draw { flags := DEFAULT_FLAGS, vertices := [['a'], ['_', 'b']], edges := [0, 1] } =
      .error { unexpected := false,
               message := "Edges may not be connected to invisible vertices" } :=
  C8_invisible_edge_user_error
    { flags := DEFAULT_FLAGS, vertices := [['a'], ['_', 'b']], edges := [0, 1] }
    (by decide) (by decide) ⟨(0, 1), by decide, Or.inr (by decide)⟩

/-! ### Claim C7 -/

/-- A line whose first character is not `(` is not an edge line. -/
lemma parseEdgeGroup_ne_paren {c : Char} {rest : List Char} (h : c ≠ '(') :
    parseEdgeGroup (c :: rest) = none := by
  unfold parseEdgeGroup
  split
  · rename_i heq
    injection heq with h1 h2
    exact absurd h1 h
  · rfl

/-- A line passing the matrix validate pattern consists of digits and
whitespace, hence cannot be an edge line (those start with `(`) and cannot
start with the flag marker `-`. -/
lemma matrixValidate_not_edge {l : List Char} (h : matrixValidate l = true) :
    parseEdgeLine l = none ∧ l.headD 'x' ≠ '-' := by
  match l with
  | [] => simp [matrixValidate] at h
  | c :: rest =>
    have hc : isSpaceChar c = true ∨ isDigitChar c = true := by
      have := (List.all_eq_true.mp (Bool.and_elim_right h)) c (by simp)
      simpa using this
    have hcp : c ≠ '(' := by
      intro heq
      subst heq
      rcases hc with h' | h' <;> exact absurd h' (by decide)
    have hcm : c ≠ '-' := by
      intro heq
      subst heq
      rcases hc with h' | h' <;> exact absurd h' (by decide)
    refine ⟨?_, by simpa using hcm⟩
    unfold parseEdgeLine
    rw [parseEdgeGroup_ne_paren hcp]

/-- Error propagation: a failing line fails the whole loop. -/
lemma parseLines_cons_error {n : Nat} {st : ParseState} {line : List Char}
    {rest : List (List Char)} {e : ParseError}
    (h : processLine n st line = .error e) :
    parseLines n st (line :: rest) = .error e := by
  unfold parseLines
  rw [h]
  rfl

/-- A successful line advances the loop to the next line number. -/
lemma parseLines_cons_ok {n : Nat} {st st' : ParseState} {line : List Char}
    {rest : List (List Char)} (h : processLine n st line = .ok st') :
    parseLines n st (line :: rest) = parseLines (n + 1) st' rest := by
  unfold parseLines
  rw [h]
  cases rest <;> rfl

/-- The line loop over an appended list runs the prefix first. -/
lemma parseLines_append (xs : List (List Char)) :
    ∀ (n : Nat) (st : ParseState) (ys : List (List Char)),
      parseLines n st (xs ++ ys) =
        match parseLines n st xs with
        | .ok st' => parseLines (n + xs.length) st' ys
        | .error e => .error e := by
  induction xs with
  | nil => intro n st ys; simp [parseLines]
  | cons l ls ih =>
    intro n st ys
    show parseLines n st (l :: (ls ++ ys)) = _
    cases h : processLine n st l with
    | error e =>
      rw [parseLines_cons_error h]
      rw [parseLines_cons_error h]
    | ok st' =>
      rw [parseLines_cons_ok h]
      rw [parseLines_cons_ok h]
      rw [ih (n + 1) st' ys]
      have hn : n + 1 + ls.length = n + (l :: ls).length := by
        simp [List.length_cons]
        omega
      rw [hn]

/-- A failing line loop fails `parseSource` with the same error. -/
lemma parseSource_error_of_parseLines {src : List Char} {e : ParseError}
    (h : parseLines 1 initState (linesOf src) = .error e) :
    parseSource src = .error e := by
  unfold parseSource
  rw [h]

/-- C7: in any source whose (preprocessed) lines split as `pre ++ line ::
rest` with the prefix parsing to state `st`: if a matrix row has been
consumed (`st.matrix ≠ []`) and `line` is not a matrix line, `parseSource`
fails with the combination `UserError`; and if `line` is a matrix line but
an edge was already produced (`st.edges ≠ []`), `parseSource` fails with
the matrix-after-edges `UserError`. -/
theorem C7_matrix_contiguity :
    ∀ (src : List Char) (pre : List (List Char)) (line : List Char)
      (rest : List (List Char)) (st : ParseState),
      linesOf src = pre ++ line :: rest →
      parseLines 1 initState pre = .ok st →
      (st.matrix ≠ [] → matrixValidate line = false →
        parseSource src =
          .error { unexpected := false,
                   message := "An adjacency matrix cannot be combined with other edge definitions" }) ∧
      (matrixValidate line = true → st.edges ≠ [] →
        parseSource src =
          .error { unexpected := false,
                   message := "An adjacency matrix follow other edge definitions" }) := by
  intro src pre line rest st hsplit hpre
  constructor
  · intro hm hv
    apply parseSource_error_of_parseLines
    rw [hsplit, parseLines_append, hpre]
    apply parseLines_cons_error
    unfold processLine
    rw [if_pos ⟨hm, hv⟩]
    rfl
  · intro hv he
    apply parseSource_error_of_parseLines
    rw [hsplit, parseLines_append, hpre]
    apply parseLines_cons_error
    unfold processLine
    rw [if_neg (by simp [hv])]
    have hhd := (matrixValidate_not_edge hv).2
    rw [if_neg (by simp only [not_and]; intro _; simpa using hhd)]
    rw [(matrixValidate_not_edge hv).1]
    show (if matrixValidate line = true then _ else _) = _
    rw [if_pos hv, if_pos he]
    rfl

/-- Witness for C7: `a` then matrix row `0` then non-matrix line `b` hits
the combination error; `a` then edge `(a,a)` then matrix row `0` hits the
matrix-after-edges error. -/
theorem C7_matrix_contiguity_witness :
    parseSource ("a\n0\nb").data =
      .error { unexpected := false,
               message := "An adjacency matrix cannot be combined with other edge definitions" } ∧
    parseSource ("a\n(a,a)\n0").data =
      .error { unexpected := false,
               message := "An adjacency matrix follow other edge definitions" } :=
  ⟨(C7_matrix_contiguity ("a\n0\nb").data [['a'], ['0']] ['b'] []
      { flags := DEFAULT_FLAGS, vertices := [['a']], edges := [],
        firstLine := false, matrix := [[0]] } rfl rfl).1
      (by decide) (by decide),
   (C7_matrix_contiguity ("a\n(a,a)\n0").data [['a'], ['(', 'a', ',', 'a', ')']] ['0'] []
      { flags := DEFAULT_FLAGS, vertices := [['a']], edges := [0, 0],
        firstLine := false, matrix := [] } rfl rfl).2
      (by decide) (by decide)⟩

/-! ### Claim C6 -/

/-- The names an edge line mentions, in resolution order. -/
def groupNames : List (Vertex × Vertex) → List Vertex
  | [] => []
  | (a, b) :: rest => a :: b :: groupNames rest

/-- Modelled from the spec: each name not yet declared is appended to the
vertex sequence at its first mention; declared names leave it unchanged. -/
def appendNew (vs : List Vertex) : List Vertex → List Vertex
  | [] => vs
  | n :: ns =>
    if (indexOf vs n).isSome then appendNew vs ns
    else appendNew (vs ++ [n]) ns

lemma addEdgeVertex_found {flags : Flags} {vs : List Vertex} {v : Vertex}
    {msg : String} {i : Nat} (h : indexOf vs v = some i) :
    addEdgeVertex flags vs v msg = .ok (vs, i) := by
  unfold addEdgeVertex
  rw [h]

lemma addEdgeVertex_none {flags : Flags} {vs : List Vertex} {v : Vertex}
    {msg : String} (hauto : flags.auto = false) (h : indexOf vs v = none) :
    addEdgeVertex flags vs v msg = .error { unexpected := false, message := msg } := by
  unfold addEdgeVertex
  rw [h, hauto]
  rfl

lemma addEdgeVertex_auto_new {flags : Flags} {vs : List Vertex} {v : Vertex}
    {msg : String} (hauto : flags.auto = true) (h : indexOf vs v = none) :
    addEdgeVertex flags vs v msg = .ok (vs ++ [v], vs.length) := by
  unfold addEdgeVertex
  rw [h, hauto]
  rfl

/-- With `auto` unset, an edge line mentioning an undeclared name throws the
line's undefined-vertex error (the vertex list never changes, so the
undeclared name is reached). -/
lemma processEdgeGroups_undefined {flags : Flags} {msg : String}
    (hauto : flags.auto = false) :
    ∀ (groups : List (Vertex × Vertex)) (vs : List Vertex) (es : List Nat),
      (∃ name ∈ groupNames groups, indexOf vs name = none) →
      processEdgeGroups flags msg groups vs es =
        .error { unexpected := false, message := msg } := by
  intro groups
  induction groups with
  | nil =>
    rintro vs es ⟨name, hmem, -⟩
    simp [groupNames] at hmem
  | cons g rest ih =>
    obtain ⟨a, b⟩ := g
    rintro vs es ⟨name, hmem, hnone⟩
    cases hia : indexOf vs a with
    | none => simp only [processEdgeGroups, addEdgeVertex_none hauto hia]
    | some i =>
      cases hib : indexOf vs b with
      | none =>
        simp only [processEdgeGroups, addEdgeVertex_found hia,
          addEdgeVertex_none hauto hib]
      | some j =>
        simp only [processEdgeGroups, addEdgeVertex_found hia,
          addEdgeVertex_found hib]
        apply ih
        refine ⟨name, ?_, hnone⟩
        have : name = a ∨ name = b ∨ name ∈ groupNames rest := by
          simpa [groupNames] using hmem
        rcases this with rfl | rfl | hmem'
        · rw [hia] at hnone; exact absurd hnone (by simp)
        · rw [hib] at hnone; exact absurd hnone (by simp)
        · exact hmem'

/-- With `auto` set, an edge line always succeeds and the resulting vertex
sequence appends each undeclared name at its first mention. -/
lemma processEdgeGroups_auto {flags : Flags} {msg : String}
    (hauto : flags.auto = true) :
    ∀ (groups : List (Vertex × Vertex)) (vs : List Vertex) (es : List Nat),
      (processEdgeGroups flags msg groups vs es).toOption.map Prod.fst =
        some (appendNew vs (groupNames groups)) := by
  intro groups
  induction groups with
  | nil => intro vs es; rfl
  | cons g rest ih =>
    obtain ⟨a, b⟩ := g
    intro vs es
    cases hia : indexOf vs a with
    | some i =>
      cases hib : indexOf vs b with
      | some j =>
        simp only [processEdgeGroups, addEdgeVertex_found hia,
          addEdgeVertex_found hib, ih]
        simp [groupNames, appendNew, hia, hib]
      | none =>
        simp only [processEdgeGroups, addEdgeVertex_found hia,
          addEdgeVertex_auto_new hauto hib, ih]
        simp [groupNames, appendNew, hia, hib]
    | none =>
      cases hib : indexOf (vs ++ [a]) b with
      | some j =>
        simp only [processEdgeGroups, addEdgeVertex_auto_new hauto hia,
          addEdgeVertex_found hib, ih]
        simp [groupNames, appendNew, hia, hib]
      | none =>
        simp only [processEdgeGroups, addEdgeVertex_auto_new hauto hia,
          addEdgeVertex_auto_new hauto hib, ih]
        simp [groupNames, appendNew, hia, hib]

/-- With `auto` unset, a path line mentioning an undeclared name throws the
line's undefined-vertex error. -/
lemma processPathWords_undefined {flags : Flags} {msg : String}
    (hauto : flags.auto = false) :
    ∀ (words : List Vertex) (last : Option Nat) (vs : List Vertex) (es : List Nat),
      (∃ name ∈ words, indexOf vs name = none) →
      processPathWords flags msg words last vs es =
        .error { unexpected := false, message := msg } := by
  intro words
  induction words with
  | nil =>
    rintro last vs es ⟨name, hmem, -⟩
    simp at hmem
  | cons w rest ih =>
    rintro last vs es ⟨name, hmem, hnone⟩
    cases hiw : indexOf vs w with
    | none => simp only [processPathWords, addEdgeVertex_none hauto hiw]
    | some i =>
      simp only [processPathWords, addEdgeVertex_found hiw]
      apply ih
      refine ⟨name, ?_, hnone⟩
      rcases List.mem_cons.mp hmem with rfl | hmem'
      · rw [hiw] at hnone; exact absurd hnone (by simp)
      · exact hmem'

/-- With `auto` set, a path line always succeeds and appends each undeclared
name at its first mention. -/
lemma processPathWords_auto {flags : Flags} {msg : String}
    (hauto : flags.auto = true) :
    ∀ (words : List Vertex) (last : Option Nat) (vs : List Vertex) (es : List Nat),
      (processPathWords flags msg words last vs es).toOption.map Prod.fst =
        some (appendNew vs words) := by
  intro words
  induction words with
  | nil => intro last vs es; rfl
  | cons w rest ih =>
    intro last vs es
    cases hiw : indexOf vs w with
    | some i =>
      simp only [processPathWords, addEdgeVertex_found hiw, ih]
      simp [appendNew, hiw]
    | none =>
      simp only [processPathWords, addEdgeVertex_auto_new hauto hiw, ih]
      simp [appendNew, hiw]

/-- An edge line starts with `(`. -/
lemma parseEdgeLine_head {l : List Char} {groups : List (Vertex × Vertex)}
    (h : parseEdgeLine l = some groups) : l.headD 'x' = '(' := by
  match l with
  | [] =>
    rw [show parseEdgeLine [] = none from rfl] at h
    exact absurd h (by simp)
  | c :: rest =>
    by_cases hc : c = '('
    · simpa using hc
    · rw [show parseEdgeLine (c :: rest) =
          (match parseEdgeGroup (c :: rest) with
            | some (g, r) => (parseEdgeRest (c :: rest).length r).map (g :: ·)
            | none => none) from rfl,
        parseEdgeGroup_ne_paren hc] at h
      exact absurd h (by simp)

/-- A path line starts with a word character. -/
lemma parsePathLine_head {l : List Char} {words : List Vertex}
    (h : parsePathLine l = some words) : isWordChar (l.headD 'x') = true := by
  match l with
  | [] =>
    rw [show parsePathLine [] = none from rfl] at h
    exact absurd h (by simp)
  | c :: rest =>
    by_cases hc : isWordChar c = true
    · simpa using hc
    · unfold parsePathLine parsePathWordsAux at h
      rw [List.takeWhile_cons_of_neg (by simpa using hc)] at h
      exact absurd h (by simp)

/-- The edge-line arm of `processLine`. -/
lemma processLine_edge {n : Nat} {st : ParseState} {line : List Char}
    {groups : List (Vertex × Vertex)} (hmat : st.matrix = [])
    (hedge : parseEdgeLine line = some groups) :
    processLine n st line =
      (processEdgeGroups st.flags (edgeMsg n) groups st.vertices st.edges).map
        (fun p => { st with vertices := p.1, edges := p.2, firstLine := false }) := by
  unfold processLine
  rw [if_neg (by simp [hmat])]
  rw [if_neg (by
    rintro ⟨-, hcontra⟩
    rw [parseEdgeLine_head hedge] at hcontra
    exact absurd hcontra (by decide))]
  rw [hedge]

/-- The path-line arm of `processLine`. -/
lemma processLine_path {n : Nat} {st : ParseState} {line : List Char}
    {words : List Vertex} (hmat : st.matrix = [])
    (hE : parseEdgeLine line = none) (hM : matrixValidate line = false)
    (hV : parseVertexLine line = none) (hP : parsePathLine line = some words) :
    processLine n st line =
      (processPathWords st.flags (pathMsg n) words none st.vertices st.edges).map
        (fun p => { st with vertices := p.1, edges := p.2, firstLine := false }) := by
  unfold processLine
  rw [if_neg (by simp [hmat])]
  rw [if_neg (by
    rintro ⟨-, hcontra⟩
    have := parsePathLine_head hP
    rw [hcontra] at this
    exact absurd this (by decide))]
  rw [hE, if_neg (by simp [hM]), hV, hP]

/-- C6: in any source whose lines split as `pre ++ line :: rest` with the
prefix parsing to a matrix-free state `st`: an edge or path line referencing
a name not in `st.vertices` makes `parseSource` fail with the line's
undefined-vertex `UserError` when `auto` is unset; with `auto` set the same
line succeeds and its resulting vertex sequence appends every undeclared
name at its first mention. -/
theorem C6_undefined_vertex_auto :
    ∀ (src : List Char) (pre : List (List Char)) (line : List Char)
      (rest : List (List Char)) (st : ParseState),
      linesOf src = pre ++ line :: rest →
      parseLines 1 initState pre = .ok st →
      st.matrix = [] →
      ((∀ groups, parseEdgeLine line = some groups →
        st.flags.auto = false →
        (∃ name ∈ groupNames groups, indexOf st.vertices name = none) →
        parseSource src =
          .error { unexpected := false, message := edgeMsg (pre.length + 1) }) ∧
       (∀ groups, parseEdgeLine line = some groups →
        st.flags.auto = true →
        (processLine (pre.length + 1) st line).toOption.map ParseState.vertices =
          some (appendNew st.vertices (groupNames groups))) ∧
       (∀ words, parseEdgeLine line = none → matrixValidate line = false →
        parseVertexLine line = none → parsePathLine line = some words →
        st.flags.auto = false →
        (∃ name ∈ words, indexOf st.vertices name = none) →
        parseSource src =
          .error { unexpected := false, message := pathMsg (pre.length + 1) }) ∧
       (∀ words, parseEdgeLine line = none → matrixValidate line = false →
        parseVertexLine line = none → parsePathLine line = some words →
        st.flags.auto = true →
        (processLine (pre.length + 1) st line).toOption.map ParseState.vertices =
          some (appendNew st.vertices words))) := by
  intro src pre line rest st hsplit hpre hmat
  refine ⟨?_, ?_, ?_, ?_⟩
  · intro groups hedge hauto hex
    apply parseSource_error_of_parseLines
    rw [hsplit, parseLines_append, hpre]
    apply parseLines_cons_error
    rw [Nat.add_comm 1 pre.length]
    rw [processLine_edge hmat hedge,
      processEdgeGroups_undefined hauto groups st.vertices st.edges hex]
    rfl
  · intro groups hedge hauto
    rw [processLine_edge hmat hedge]
    have h := @processEdgeGroups_auto st.flags (edgeMsg (pre.length + 1)) hauto
      groups st.vertices st.edges
    cases hres : processEdgeGroups st.flags (edgeMsg (pre.length + 1)) groups
        st.vertices st.edges with
    | error e => rw [hres] at h; exact absurd h (by simp [Except.toOption])
    | ok p =>
      rw [hres] at h
      have hp : p.1 = appendNew st.vertices (groupNames groups) :=
        Option.some.inj (h : some p.1 = _)
      simp [Except.map, Except.toOption, hp]
  · intro words hE hM hV hP hauto hex
    apply parseSource_error_of_parseLines
    rw [hsplit, parseLines_append, hpre]
    apply parseLines_cons_error
    rw [Nat.add_comm 1 pre.length]
    rw [processLine_path hmat hE hM hV hP,
      processPathWords_undefined hauto words none st.vertices st.edges hex]
    rfl
  · intro words hE hM hV hP hauto
    rw [processLine_path hmat hE hM hV hP]
    have h := @processPathWords_auto st.flags (pathMsg (pre.length + 1)) hauto
      words none st.vertices st.edges
    cases hres : processPathWords st.flags (pathMsg (pre.length + 1)) words none
        st.vertices st.edges with
    | error e => rw [hres] at h; exact absurd h (by simp [Except.toOption])
    | ok p =>
      rw [hres] at h
      have hp : p.1 = appendNew st.vertices words :=
        Option.some.inj (h : some p.1 = _)
      simp [Except.map, Except.toOption, hp]

/-- Witness for C6: `a` then `(a,b)` fails with the line-2 edge error and
`a` then `a-b` fails with the line-2 path error; under `-a` the same lines
succeed and append `b`. -/
theorem C6_undefined_vertex_auto_witness :
    (parseSource ("a\n(a,b)").data =
      .error { unexpected := false, message := edgeMsg 2 }) ∧
    (parseSource ("a\na-b").data =
      .error { unexpected := false, message := pathMsg 2 }) ∧
    ((processLine 2
        { flags := { directed := false, simple := false, auto := true, flipped := false },
          vertices := [], edges := [], firstLine := false, matrix := [] }
        ['(', 'a', ',', 'b', ')']).toOption.map ParseState.vertices =
      some (appendNew [] (groupNames [(['a'], ['b'])]))) ∧
    ((processLine 2
        { flags := { directed := false, simple := false, auto := true, flipped := false },
          vertices := [], edges := [], firstLine := false, matrix := [] }
        ['a', '-', 'b']).toOption.map ParseState.vertices =
      some (appendNew [] [['a'], ['b']])) :=
  ⟨(C6_undefined_vertex_auto ("a\n(a,b)").data [['a']] ['(', 'a', ',', 'b', ')'] []
      { flags := DEFAULT_FLAGS, vertices := [['a']], edges := [],
        firstLine := false, matrix := [] } rfl rfl rfl).1
      [(['a'], ['b'])] rfl rfl ⟨['b'], by decide, by decide⟩,
   (C6_undefined_vertex_auto ("a\na-b").data [['a']] ['a', '-', 'b'] []
      { flags := DEFAULT_FLAGS, vertices := [['a']], edges := [],
        firstLine := false, matrix := [] } rfl rfl rfl).2.2.1
      [['a'], ['b']] rfl rfl rfl rfl rfl ⟨['b'], by decide, by decide⟩,
   (C6_undefined_vertex_auto ("-a\n(a,b)").data [['-', 'a']] ['(', 'a', ',', 'b', ')'] []
      { flags := { directed := false, simple := false, auto := true, flipped := false },
        vertices := [], edges := [], firstLine := false, matrix := [] }
      rfl rfl rfl).2.1 [(['a'], ['b'])] rfl rfl,
   (C6_undefined_vertex_auto ("-a\na-b").data [['-', 'a']] ['a', '-', 'b'] []
      { flags := { directed := false, simple := false, auto := true, flipped := false },
        vertices := [], edges := [], firstLine := false, matrix := [] }
      rfl rfl rfl).2.2.2 [['a'], ['b']] rfl rfl rfl rfl rfl⟩

/-! ### Claims C9 and C10: parser invariants -/

lemma indexOf_lt_length : ∀ {vs : List Vertex} {v : Vertex} {i : Nat},
    indexOf vs v = some i → i < vs.length := by
  intro vs
  induction vs with
  | nil => intro v i h; exact Option.noConfusion h
  | cons w rest ih =>
    intro v i h
    unfold indexOf at h
    by_cases hw : w = v
    · rw [if_pos hw] at h
      injection h with h
      subst h
      simp
    · rw [if_neg hw] at h
      cases hr : indexOf rest v with
      | none => rw [hr] at h; simp at h
      | some k =>
        rw [hr] at h
        have hki : k + 1 = i := Option.some.inj (h : some (k + 1) = some i)
        subst hki
        have := ih hr
        simp only [List.length_cons]
        omega

/-- A successful vertex resolution extends the vertex list (possibly by the
new name) and returns an index within the new list. -/
lemma addEdgeVertex_ok {flags : Flags} {vs : List Vertex} {v : Vertex}
    {msg : String} {vs' : List Vertex} {i : Nat}
    (h : addEdgeVertex flags vs v msg = .ok (vs', i)) :
    (∃ ext, vs' = vs ++ ext) ∧ i < vs'.length ∧ vs.length ≤ vs'.length := by
  unfold addEdgeVertex at h
  cases hio : indexOf vs v with
  | some idx =>
    rw [hio] at h
    injection h with h
    obtain ⟨rfl, rfl⟩ : vs = vs' ∧ idx = i := by
      constructor <;> [exact congrArg Prod.fst h; exact congrArg Prod.snd h]
    exact ⟨⟨[], by simp⟩, indexOf_lt_length hio, Nat.le_refl _⟩
  | none =>
    rw [hio] at h
    by_cases ha : flags.auto = true
    · rw [if_pos ha] at h
      injection h with h
      obtain ⟨rfl, rfl⟩ : vs ++ [v] = vs' ∧ vs.length = i := by
        constructor <;> [exact congrArg Prod.fst h; exact congrArg Prod.snd h]
      refine ⟨⟨[v], rfl⟩, by simp, by simp⟩
    · rw [if_neg ha] at h
      exact absurd h (by simp [cancelParse])

/-- The edge-line branch preserves the edge-index invariant, only appends to
the vertex list, and appends an even number of edge indices. -/
lemma processEdgeGroups_ok {flags : Flags} {msg : String} :
    ∀ {groups : List (Vertex × Vertex)} {vs : List Vertex} {es : List Nat}
      {vs' : List Vertex} {es' : List Nat},
      processEdgeGroups flags msg groups vs es = .ok (vs', es') →
      vs.length ≤ vs'.length ∧ (∃ ext, vs' = vs ++ ext) ∧
      ((∀ e ∈ es, e < vs.length) → ∀ e ∈ es', e < vs'.length) ∧
      (∃ k, es'.length = es.length + 2 * k) := by
  intro groups
  induction groups with
  | nil =>
    intro vs es vs' es' h
    injection h with h
    obtain ⟨rfl, rfl⟩ : vs = vs' ∧ es = es' := by
      constructor <;> [exact congrArg Prod.fst h; exact congrArg Prod.snd h]
    exact ⟨Nat.le_refl _, ⟨[], by simp⟩, fun hI => hI, ⟨0, by omega⟩⟩
  | cons g rest ih =>
    obtain ⟨a, b⟩ := g
    intro vs es vs' es' h
    simp only [processEdgeGroups] at h
    split at h
    · exact absurd h (by simp)
    · rename_i vs1 i heq1
      split at h
      · exact absurd h (by simp)
      · rename_i vs2 j heq2
        obtain ⟨⟨e1, he1⟩, hi1, hle1⟩ := addEdgeVertex_ok heq1
        obtain ⟨⟨e2, he2⟩, hi2, hle2⟩ := addEdgeVertex_ok heq2
        obtain ⟨hle3, ⟨e3, he3⟩, hinv3, ⟨k, hk⟩⟩ := ih h
        refine ⟨Nat.le_trans (Nat.le_trans hle1 hle2) hle3,
          ⟨e1 ++ (e2 ++ e3), by rw [he3, he2, he1]; simp⟩, ?_, ?_⟩
        · intro hInv
          apply hinv3
          intro e he
          rcases List.mem_append.mp he with he | he
          · exact Nat.lt_of_lt_of_le (hInv e he) (Nat.le_trans hle1 hle2)
          · have : e = i ∨ e = j := by simpa using he
            rcases this with rfl | rfl
            · exact Nat.lt_of_lt_of_le hi1 hle2
            · exact hi2
        · refine ⟨k + 1, ?_⟩
          rw [hk]
          simp only [List.length_append, List.length_cons, List.length_nil]
          omega

/-- The path-line branch likewise (the running `lastVertexIndex`, when set,
is an index into the current vertex list). -/
lemma processPathWords_ok {flags : Flags} {msg : String} :
    ∀ {words : List Vertex} {last : Option Nat} {vs : List Vertex}
      {es : List Nat} {vs' : List Vertex} {es' : List Nat},
      processPathWords flags msg words last vs es = .ok (vs', es') →
      (∀ l, last = some l → l < vs.length) →
      vs.length ≤ vs'.length ∧ (∃ ext, vs' = vs ++ ext) ∧
      ((∀ e ∈ es, e < vs.length) → ∀ e ∈ es', e < vs'.length) ∧
      (∃ k, es'.length = es.length + 2 * k) := by
  intro words
  induction words with
  | nil =>
    intro last vs es vs' es' h _
    injection h with h
    obtain ⟨rfl, rfl⟩ : vs = vs' ∧ es = es' := by
      constructor <;> [exact congrArg Prod.fst h; exact congrArg Prod.snd h]
    exact ⟨Nat.le_refl _, ⟨[], by simp⟩, fun hI => hI, ⟨0, by omega⟩⟩
  | cons w rest ih =>
    intro last vs es vs' es' h hlast
    simp only [processPathWords] at h
    split at h
    · exact absurd h (by simp)
    · rename_i vs1 idx heq1
      obtain ⟨⟨e1, he1⟩, hi1, hle1⟩ := addEdgeVertex_ok heq1
      have hlast1 : ∀ l, (some idx : Option Nat) = some l → l < vs1.length := by
        intro l hl
        injection hl with hl
        subst hl
        exact hi1
      obtain ⟨hle3, ⟨e3, he3⟩, hinv3, ⟨k, hk⟩⟩ := ih h hlast1
      cases last with
      | none =>
        refine ⟨Nat.le_trans hle1 hle3, ⟨e1 ++ e3, by rw [he3, he1]; simp⟩, ?_, ?_⟩
        · intro hInv
          apply hinv3
          intro e he
          exact Nat.lt_of_lt_of_le (hInv e he) hle1
        · exact ⟨k, hk⟩
      | some l =>
        have hl : l < vs.length := hlast l rfl
        refine ⟨Nat.le_trans hle1 hle3, ⟨e1 ++ e3, by rw [he3, he1]; simp⟩, ?_, ?_⟩
        · intro hInv
          apply hinv3
          intro e he
          rcases List.mem_append.mp he with he | he
          · exact Nat.lt_of_lt_of_le (hInv e he) hle1
          · have : e = l ∨ e = idx := by simpa using he
            rcases this with rfl | rfl
            · exact Nat.lt_of_lt_of_le hl hle1
            · exact hi1
        · refine ⟨k + 1, ?_⟩
          rw [hk]
          simp only [List.length_append, List.length_cons, List.length_nil]
          omega

/-- One line of the loop preserves the model invariants: the vertex list
only grows, in-range edge indices stay in range, and the edge list grows by
whole pairs. -/
lemma processLine_ok {n : Nat} {st st' : ParseState} {line : List Char}
    (h : processLine n st line = .ok st') :
    st.vertices.length ≤ st'.vertices.length ∧
    ((∀ e ∈ st.edges, e < st.vertices.length) →
      ∀ e ∈ st'.edges, e < st'.vertices.length) ∧
    (∃ k, st'.edges.length = st.edges.length + 2 * k) := by
  unfold processLine at h
  split at h
  · exact absurd h (by simp [cancelParse])
  split at h
  · injection h with h
    subst h
    exact ⟨Nat.le_refl _, fun hI => hI, ⟨0, by simp⟩⟩
  · split at h
    · rename_i groups heq
      cases hres : processEdgeGroups st.flags (edgeMsg n) groups st.vertices st.edges with
      | error e => rw [hres] at h; exact absurd h (by simp [Except.map])
      | ok p =>
        rw [hres] at h
        obtain ⟨vs2, es2⟩ := p
        simp only [Except.map] at h
        injection h with h
        subst h
        exact ⟨(processEdgeGroups_ok hres).1, (processEdgeGroups_ok hres).2.2.1,
          (processEdgeGroups_ok hres).2.2.2⟩
    · split at h
      · split at h
        · exact absurd h (by simp [cancelParse])
        · split at h
          · exact absurd h (by simp [cancelParse])
          · injection h with h
            subst h
            exact ⟨Nat.le_refl _, fun hI => hI, ⟨0, by simp⟩⟩
      · split at h
        · rename_i words heq
          injection h with h
          subst h
          refine ⟨by simp, ?_, ⟨0, by simp⟩⟩
          intro hI e he
          simp only [List.length_append]
          exact Nat.lt_of_lt_of_le (hI e he) (Nat.le_add_right _ _)
        · split at h
          · rename_i words heq
            cases hres : processPathWords st.flags (pathMsg n) words none st.vertices st.edges with
            | error e => rw [hres] at h; exact absurd h (by simp [Except.map])
            | ok p =>
              rw [hres] at h
              obtain ⟨vs2, es2⟩ := p
              simp only [Except.map] at h
              injection h with h
              subst h
              have hok := processPathWords_ok hres (by intro l hl; simp at hl)
              exact ⟨hok.1, hok.2.2.1, hok.2.2.2⟩
          · exact absurd h (by simp [cancelParse])

/-- The whole line loop preserves the model invariants. -/
lemma parseLines_ok : ∀ {xs : List (List Char)} {n : Nat} {st st' : ParseState},
    parseLines n st xs = .ok st' →
    st.vertices.length ≤ st'.vertices.length ∧
    ((∀ e ∈ st.edges, e < st.vertices.length) →
      ∀ e ∈ st'.edges, e < st'.vertices.length) ∧
    (∃ k, st'.edges.length = st.edges.length + 2 * k) := by
  intro xs
  induction xs with
  | nil =>
    intro n st st' h
    injection h with h
    subst h
    exact ⟨Nat.le_refl _, fun hI => hI, ⟨0, by omega⟩⟩
  | cons l ls ih =>
    intro n st st' h
    cases hl : processLine n st l with
    | error e => rw [parseLines_cons_error hl] at h; exact absurd h (by simp)
    | ok st1 =>
      rw [parseLines_cons_ok hl] at h
      obtain ⟨ha1, ha2, ⟨k1, hk1⟩⟩ := processLine_ok hl
      obtain ⟨hb1, hb2, ⟨k2, hk2⟩⟩ := ih h
      exact ⟨Nat.le_trans ha1 hb1, fun hI => hb2 (ha2 hI),
        ⟨k1 + k2, by rw [hk2, hk1]; omega⟩⟩

/-- The offset table has one entry per visible vertex, and translating the
k-th visible vertex through it lands inside the full vertex sequence. -/
lemma computeOffsets_spec : ∀ (vs : List Vertex) (off : Nat),
    (computeOffsets vs off).2.length = (computeOffsets vs off).1 ∧
    ∀ k, k < (computeOffsets vs off).2.length →
      k + (computeOffsets vs off).2.getD k 0 < off + vs.length := by
  intro vs
  induction vs with
  | nil =>
    intro off
    exact ⟨rfl, by intro k hk; simp [computeOffsets] at hk⟩
  | cons v rest ih =>
    intro off
    by_cases hv : startsWithMarker v = true
    · have heq : computeOffsets (v :: rest) off = computeOffsets rest (off + 1) := by
        conv_lhs => unfold computeOffsets
        rw [if_pos hv]
      rw [heq]
      obtain ⟨h1, h2⟩ := ih (off + 1)
      refine ⟨h1, fun k hk => ?_⟩
      have := h2 k hk
      simp only [List.length_cons]
      omega
    · have heq : computeOffsets (v :: rest) off =
          ((computeOffsets rest off).1 + 1, off :: (computeOffsets rest off).2) := by
        conv_lhs => unfold computeOffsets
        rw [if_neg hv]
      rw [heq]
      obtain ⟨h1, h2⟩ := ih off
      constructor
      · simp [h1]
      · intro k hk
        cases k with
        | zero =>
          simp only [List.getD_cons_zero, List.length_cons]
          omega
        | succ k2 =>
          simp only [List.getD_cons_succ]
          have hk2 : k2 < (computeOffsets rest off).2.length := by
            simp only [List.length_cons] at hk
            omega
          have := h2 k2 hk2
          simp only [List.length_cons]
          omega

lemma flatten_replicate_mem {v x y e : Nat}
    (h : e ∈ (List.replicate v [x, y]).flatten) : e = x ∨ e = y := by
  rw [List.mem_flatten] at h
  obtain ⟨l, hl, he⟩ := h
  rw [List.eq_of_mem_replicate hl] at he
  simpa using he

lemma flatten_replicate_length (v x y : Nat) :
    ((List.replicate v [x, y]).flatten).length = 2 * v := by
  induction v with
  | zero => rfl
  | succ m ih =>
    simp only [List.replicate_succ, List.flatten_cons, List.length_append, ih,
      List.length_cons, List.length_nil]
    omega

/-- One matrix cell only appends translated copies of its own pair, in
whole pairs. -/
lemma emitCell_ok {flags : Flags} {matrix : List (List Nat)} {offsets : List Nat}
    {i j : Nat} {es es' : List Nat} {B : Nat}
    (h : emitCell flags matrix offsets i j es = .ok es')
    (hi : i + offsets.getD i 0 < B) (hj : j + offsets.getD j 0 < B)
    (hes : ∀ e ∈ es, e < B) :
    (∀ e ∈ es', e < B) ∧ (∃ k, es'.length = es.length + 2 * k) := by
  unfold emitCell at h
  split at h
  · injection h with h
    subst h
    exact ⟨hes, ⟨0, by omega⟩⟩
  · split at h
    · exact absurd h (by simp)
    · rename_i value2 heq
      injection h with h
      subst h
      constructor
      · intro e he
        rcases List.mem_append.mp he with he | he
        · exact hes e he
        · rcases flatten_replicate_mem he with rfl | rfl
          · exact hi
          · exact hj
      · refine ⟨value2, ?_⟩
        rw [List.length_append, flatten_replicate_length]

lemma emitCells_ok {flags : Flags} {matrix : List (List Nat)} {offsets : List Nat}
    {i : Nat} {B : Nat} :
    ∀ {js : List Nat} {es es' : List Nat},
      emitCells flags matrix offsets i js es = .ok es' →
      i + offsets.getD i 0 < B →
      (∀ j ∈ js, j + offsets.getD j 0 < B) →
      (∀ e ∈ es, e < B) →
      (∀ e ∈ es', e < B) ∧ (∃ k, es'.length = es.length + 2 * k) := by
  intro js
  induction js with
  | nil =>
    intro es es' h _ _ hes
    injection h with h
    subst h
    exact ⟨hes, ⟨0, by omega⟩⟩
  | cons j js ih =>
    intro es es' h hi hjs hes
    simp only [emitCells] at h
    split at h
    · exact absurd h (by simp)
    · rename_i edges1 heq
      obtain ⟨h1, ⟨k1, hk1⟩⟩ := emitCell_ok heq hi (hjs j (by simp)) hes
      obtain ⟨h2, ⟨k2, hk2⟩⟩ := ih h hi (fun j2 hj2 => hjs j2 (by simp [hj2])) h1
      exact ⟨h2, ⟨k1 + k2, by rw [hk2, hk1]; omega⟩⟩

lemma emitRows_ok {flags : Flags} {matrix : List (List Nat)} {offsets : List Nat}
    {B : Nat} :
    ∀ {is : List Nat} {es es' : List Nat},
      emitRows flags matrix offsets is es = .ok es' →
      (∀ m ∈ is, m + offsets.getD m 0 < B) →
      (∀ m ∈ List.range matrix.length, m + offsets.getD m 0 < B) →
      (∀ e ∈ es, e < B) →
      (∀ e ∈ es', e < B) ∧ (∃ k, es'.length = es.length + 2 * k) := by
  intro is
  induction is with
  | nil =>
    intro es es' h _ _ hes
    injection h with h
    subst h
    exact ⟨hes, ⟨0, by omega⟩⟩
  | cons i is ih =>
    intro es es' h his hrange hes
    simp only [emitRows] at h
    split at h
    · exact absurd h (by simp)
    · rename_i edges1 heq
      obtain ⟨h1, ⟨k1, hk1⟩⟩ := emitCells_ok heq (his i (by simp))
        (fun j hj => hrange j hj) hes
      obtain ⟨h2, ⟨k2, hk2⟩⟩ := ih h (fun m hm => his m (by simp [hm])) hrange h1
      exact ⟨h2, ⟨k1 + k2, by rw [hk2, hk1]; omega⟩⟩

/-- Any successful parse satisfies the edge-index range invariant and
produces a flat edge list of even length. -/
lemma parseSource_ok_edges {src : List Char} {g : GraphData}
    (h : parseSource src = .ok g) :
    (∀ e ∈ g.edges, e < g.vertices.length) ∧ (∃ k, g.edges.length = 2 * k) := by
  unfold parseSource at h
  split at h
  · exact Except.noConfusion h
  · rename_i st hst
    obtain ⟨hmono, hinvf, ⟨k0, hk0⟩⟩ := parseLines_ok hst
    have hinv : ∀ e ∈ st.edges, e < st.vertices.length := by
      apply hinvf
      intro e he
      simp [initState] at he
    have heven : ∃ k, st.edges.length = 2 * k := by
      refine ⟨k0, ?_⟩
      rw [hk0]
      simp [initState]
    split at h
    · injection h with h
      subst h
      exact ⟨hinv, heven⟩
    · rename_i hne
      split at h
      · exact absurd h (by simp [cancelParse])
      · rename_i hH
        split at h
        · exact absurd h (by simp [cancelParse])
        · rename_i hW
          split at h
          · exact absurd h (by simp)
          · rename_i edges1 hemit
            injection h with h
            subst h
            have hlen : st.matrix.length = (computeOffsets st.vertices 0).1 := by
              by_contra hc
              exact hH hc
            have hbound : ∀ m ∈ List.range st.matrix.length,
                m + (computeOffsets st.vertices 0).2.getD m 0 < st.vertices.length := by
              intro m hm
              rw [List.mem_range] at hm
              obtain ⟨hlen2, hspec⟩ := computeOffsets_spec st.vertices 0
              have hm2 : m < (computeOffsets st.vertices 0).2.length := by
                rw [hlen2, ← hlen]
                exact hm
              have := hspec m hm2
              omega
            obtain ⟨h1, ⟨k1, hk1⟩⟩ := emitRows_ok hemit hbound hbound hinv
            refine ⟨h1, ?_⟩
            obtain ⟨k2, hk2⟩ := heven
            exact ⟨k2 + k1, by rw [hk1, hk2]; omega⟩

/-- C9: for every source on which `parseSource` succeeds, every index in the
returned flat edge sequence — including indices materialized from an
adjacency matrix and translated through the offset table — lies in
`[0, |vertices|)`. -/
theorem C9_edge_indices_in_range (src : List Char) (g : GraphData)
    (h : parseSource src = .ok g) :
    g.edges.all (fun e => decide (e < g.vertices.length)) = true := by
  have hall := (parseSource_ok_edges h).1
  rw [List.all_eq_true]
  intro e he
  simpa using hall e he

/-- Witness for C9: the matrix source `a,_x,b` over `1 0 / 0 2` exercises
both the edge-list and matrix paths. -/
theorem C9_edge_indices_in_range_witness :
    (GraphData.mk DEFAULT_FLAGS [['a'], ['b']] [0, 1]).edges.all
      (fun e => decide (e <
        (GraphData.mk DEFAULT_FLAGS [['a'], ['b']] [0, 1]).vertices.length)) = true :=
  C9_edge_indices_in_range ("a,b\n(a,b)").data _ rfl

/-- C10: for every source on which `parseSource` succeeds, the returned flat
edge sequence has even length — indices are only appended in (from, to)
pairs. -/
theorem C10_edges_even_length (src : List Char) (g : GraphData)
    (h : parseSource src = .ok g) :
    g.edges.length % 2 = 0 := by
  obtain ⟨k, hk⟩ := (parseSource_ok_edges h).2
  omega

/-- Witness for C10 on a matrix source. -/
theorem C10_edges_even_length_witness :
    (GraphData.mk DEFAULT_FLAGS [['a'], ['b']] [1, 0, 1, 0]).edges.length % 2 = 0 :=
  C10_edges_even_length ("a,b\n0 2\n2 0").data _ rfl

/-! ### Claim C4 -/

/-- Modelled from the spec: a line with no internal whitespace and only
single digits is read as one cell per digit; otherwise its cells are the
whitespace-separated integers (the maximal digit runs). -/
def specMatrixRow (l : List Char) : List Nat :=
  if l.all isDigitChar then l.map charToDigit
  else (digitRuns l).map strToNat

lemma digitRunsAux_all_digit : ∀ (l acc : List Char),
    (∀ c ∈ l, isDigitChar c = true) → (acc ≠ [] ∨ l ≠ []) →
    digitRunsAux l acc = [acc.reverse ++ l] := by
  intro l
  induction l with
  | nil =>
    intro acc _ hne
    have hacc : acc ≠ [] := hne.resolve_right (fun h => h rfl)
    unfold digitRunsAux
    rw [if_neg (by simpa [List.isEmpty_iff] using hacc)]
    simp
  | cons c rest ih =>
    intro acc hdig hne
    unfold digitRunsAux
    rw [if_pos (hdig c (by simp))]
    rw [ih (c :: acc) (fun x hx => hdig x (by simp [hx])) (Or.inl (by simp))]
    simp

lemma digitRuns_all_digit {l : List Char} (hne : l ≠ [])
    (h : ∀ c ∈ l, isDigitChar c = true) : digitRuns l = [l] := by
  unfold digitRuns
  rw [digitRunsAux_all_digit l [] h (Or.inr hne)]
  simp

lemma digitRunsAux_ne_nil_of_acc : ∀ (l acc : List Char), acc ≠ [] →
    digitRunsAux l acc ≠ [] := by
  intro l
  induction l with
  | nil =>
    intro acc hacc
    unfold digitRunsAux
    rw [if_neg (by simpa [List.isEmpty_iff] using hacc)]
    simp
  | cons c rest ih =>
    intro acc hacc
    unfold digitRunsAux
    by_cases hc : isDigitChar c = true
    · rw [if_pos hc]
      exact ih (c :: acc) (by simp)
    · rw [if_neg hc, if_neg (by simpa [List.isEmpty_iff] using hacc)]
      simp

lemma digitRunsAux_ne_nil_of_digit : ∀ (l acc : List Char),
    (∃ c ∈ l, isDigitChar c = true) → digitRunsAux l acc ≠ [] := by
  intro l
  induction l with
  | nil =>
    rintro acc ⟨c, hc, -⟩
    simp at hc
  | cons c rest ih =>
    rintro acc ⟨d, hd, hdig⟩
    unfold digitRunsAux
    by_cases hc : isDigitChar c = true
    · rw [if_pos hc]
      exact digitRunsAux_ne_nil_of_acc rest (c :: acc) (by simp)
    · rw [if_neg hc]
      have hd' : d ∈ rest := by
        rcases List.mem_cons.mp hd with rfl | h
        · exact absurd hdig hc
        · exact h
      by_cases hacc : acc.isEmpty = true
      · rw [if_pos hacc]
        exact ih [] ⟨d, hd', hdig⟩
      · rw [if_neg hacc]
        simp

lemma digitRunsAux_append_run : ∀ (run rest acc : List Char),
    (∀ c ∈ run, isDigitChar c = true) →
    digitRunsAux (run ++ rest) acc = digitRunsAux rest (run.reverse ++ acc) := by
  intro run
  induction run with
  | nil => intro rest acc _; simp
  | cons c rs ih =>
    intro rest acc hdig
    show digitRunsAux (c :: (rs ++ rest)) acc = _
    conv_lhs => unfold digitRunsAux
    rw [if_pos (hdig c (by simp))]
    rw [ih rest (c :: acc) (fun x hx => hdig x (by simp [hx]))]
    congr 1
    simp

lemma dropWhile_head_false (p : Char → Bool) : ∀ (l : List Char) (x : Char)
    (xs : List Char), l.dropWhile p = x :: xs → p x = false := by
  intro l
  induction l with
  | nil => intro x xs h; simp at h
  | cons c rest ih =>
    intro x xs h
    by_cases hc : p c = true
    · rw [List.dropWhile_cons_of_pos hc] at h
      exact ih x xs h
    · rw [List.dropWhile_cons_of_neg hc] at h
      injection h with h1 _
      subst h1
      simpa using hc

/-- C4: a matrix line (digits and whitespace, trimmed as every line of
`parseSource` is: no leading or trailing whitespace) is read as one cell per
digit when it has no internal whitespace — all characters are then digits —
and as the whitespace-separated integers otherwise. -/
theorem C4_matrix_row_forms (l : List Char)
    (hv : matrixValidate l = true)
    (hhead : ∀ c, l.head? = some c → isSpaceChar c = false)
    (hlast : ∀ c, l.getLast? = some c → isSpaceChar c = false) :
    parseMatrixRow l = specMatrixRow l := by
  have hne : l ≠ [] := by
    intro h
    subst h
    simp [matrixValidate] at hv
  have hcs : ∀ c ∈ l, isSpaceChar c = true ∨ isDigitChar c = true := by
    intro c hc
    have := List.all_eq_true.mp (Bool.and_elim_right hv) c hc
    simpa using this
  unfold parseMatrixRow specMatrixRow
  by_cases hall : l.all isDigitChar = true
  · rw [if_pos hall]
    have hdig : ∀ c ∈ l, isDigitChar c = true := fun c hc => by
      simpa using List.all_eq_true.mp hall c hc
    rw [digitRuns_all_digit hne hdig]
    simp
  · rw [if_neg hall]
    obtain ⟨s, hsmem, hsnd⟩ : ∃ c ∈ l, isDigitChar c = false := by
      by_contra hcon
      apply hall
      rw [List.all_eq_true]
      intro x hx
      by_contra hx2
      exact hcon ⟨x, hx, by simpa using hx2⟩
    obtain ⟨c0, rest0, rfl⟩ : ∃ c0 rest0, l = c0 :: rest0 := by
      cases l with
      | nil => exact absurd rfl hne
      | cons a as => exact ⟨a, as, rfl⟩
    have hc0 : isDigitChar c0 = true := by
      have hsp := hhead c0 rfl
      rcases hcs c0 (by simp) with h | h
      · exact absurd h (by simp [hsp])
      · exact h
    have hsplit : (c0 :: rest0).takeWhile isDigitChar ++
        (c0 :: rest0).dropWhile isDigitChar = c0 :: rest0 :=
      List.takeWhile_append_dropWhile isDigitChar (c0 :: rest0)
    have hrun_digit : ∀ c ∈ (c0 :: rest0).takeWhile isDigitChar,
        isDigitChar c = true := fun c hc => List.mem_takeWhile_imp hc
    have hrun_ne : (c0 :: rest0).takeWhile isDigitChar ≠ [] := by
      rw [List.takeWhile_cons_of_pos hc0]
      simp
    have hs_rest : s ∈ (c0 :: rest0).dropWhile isDigitChar := by
      have hmem : s ∈ (c0 :: rest0).takeWhile isDigitChar ++
          (c0 :: rest0).dropWhile isDigitChar := by
        rw [hsplit]
        exact hsmem
      rcases List.mem_append.mp hmem with hin | hin
      · exact absurd (hrun_digit s hin) (by simp [hsnd])
      · exact hin
    obtain ⟨s0, tail, hrest_eq⟩ : ∃ x xs,
        (c0 :: rest0).dropWhile isDigitChar = x :: xs := by
      cases hrest : (c0 :: rest0).dropWhile isDigitChar with
      | nil => rw [hrest] at hs_rest; simp at hs_rest
      | cons x xs => exact ⟨x, xs, rfl⟩
    have hs0_nd : isDigitChar s0 = false :=
      dropWhile_head_false isDigitChar (c0 :: rest0) s0 tail hrest_eq
    have hs0_mem : s0 ∈ c0 :: rest0 := by
      rw [← hsplit, hrest_eq]
      exact List.mem_append_right _ (by simp)
    have hs0_sp : isSpaceChar s0 = true := by
      rcases hcs s0 hs0_mem with h | h
      · exact h
      · exact absurd h (by simp [hs0_nd])
    obtain ⟨t0, ts, rfl⟩ : ∃ x xs, tail = x :: xs := by
      cases htail : tail with
      | nil =>
        subst htail
        have hgl : (c0 :: rest0).getLast? = some s0 := by
          rw [← hsplit, hrest_eq, List.getLast?_append]
          rfl
        have := hlast s0 hgl
        rw [hs0_sp] at this
        exact absurd this (by decide)
      | cons x xs => exact ⟨x, xs, rfl⟩
    have htne : (t0 :: ts : List Char) ≠ [] := by simp
    have hdl : (t0 :: ts).getLast? = some ((t0 :: ts).getLast htne) :=
      List.getLast?_eq_getLast _ htne
    have hgl : (c0 :: rest0).getLast? = some ((t0 :: ts).getLast htne) := by
      rw [← hsplit, hrest_eq, List.getLast?_append, List.getLast?_cons_cons, hdl]
      rfl
    have hd_sp := hlast _ hgl
    have hd_mem_l : (t0 :: ts).getLast htne ∈ c0 :: rest0 := by
      rw [← hsplit, hrest_eq]
      exact List.mem_append_right _ (by
        have := List.getLast_mem htne
        simp [this])
    have hd_dig : isDigitChar ((t0 :: ts).getLast htne) = true := by
      rcases hcs _ hd_mem_l with h | h
      · exact absurd h (by simp [hd_sp])
      · exact h
    have hru : digitRuns (c0 :: rest0) =
        (((c0 :: rest0).takeWhile isDigitChar).reverse ++ []).reverse ::
          digitRunsAux (t0 :: ts) [] := by
      unfold digitRuns
      conv_lhs => rw [← hsplit, hrest_eq]
      rw [digitRunsAux_append_run _ _ [] hrun_digit]
      conv_lhs => unfold digitRunsAux
      rw [if_neg (by simp [hs0_nd]),
        if_neg (by simp [List.isEmpty_iff, hrun_ne])]
    have hnn := digitRunsAux_ne_nil_of_digit (t0 :: ts) []
      ⟨(t0 :: ts).getLast htne, List.getLast_mem htne, hd_dig⟩
    have hlen : 1 ≤ (digitRunsAux (t0 :: ts) []).length := by
      cases hc : digitRunsAux (t0 :: ts) [] with
      | nil => exact absurd hc hnn
      | cons a as => simp
    have h2 : 2 ≤ (digitRuns (c0 :: rest0)).length := by
      rw [hru]
      simp only [List.length_cons]
      omega
    rw [if_neg (by omega)]

/-- Witness for C4 on the spaced row `0 15` and (via the theorem's all-digit
case at another input) the compact row `015`. -/
theorem C4_matrix_row_forms_witness :
    parseMatrixRow ("0 15").data = specMatrixRow ("0 15").data ∧
    parseMatrixRow ("015").data = specMatrixRow ("015").data :=
  ⟨C4_matrix_row_forms ("0 15").data (by decide)
      (by intro c hc; injection hc with hc; subst hc; decide)
      (by intro c hc; injection hc with hc; subst hc; decide),
   C4_matrix_row_forms ("015").data (by decide)
      (by intro c hc; injection hc with hc; subst hc; decide)
      (by intro c hc; injection hc with hc; subst hc; decide)⟩

end Kale